import Mathlib

/-!
Verification development for the password-entropy and wordlist components of
the `cracken` toolkit (`src/password_entropy.rs`, `src/wordlists.rs`).

Byte strings are modelled as `List Nat` (each element a byte value `0 ≤ b ≤ 255`).
Rust's `HashMap<Vec<u8>, usize>` is modelled as an association list
`List (List Nat × Nat)` with insert-replace semantics (`HashMap::insert`
replaces the value of an existing key); only `get`/`insert`/`entry().or_insert`
and `len` are used by the source, so iteration order is irrelevant.

Floating-point `f64` arithmetic (`log2`, addition) is modelled by exact real
arithmetic: edge weights `(*rank as f64).log2()` become `Real.logb 2 rank`.
The A* search of the `pathfinding` crate, invoked with the zero heuristic
(`|_| 0.0`), is Dijkstra on the DAG of password positions `0..=N`; since every
edge weight is nonnegative the returned path is strictly monotone (a self-loop
`n → n` coming from an empty vocab key never improves the cost of an already
opened node, so it is never a parent edge) and exact-real comparison of path
costs coincides with comparison of the products of the segment ranks
(`Σ log2 rᵢ < Σ log2 sᵢ ↔ Π rᵢ < Π sᵢ` for positive naturals).  The model
`bestFrom` below therefore minimises the product of the ranks over the
monotone covers of the password, scanning successors longest-match-first
(`(n..=len).rev()`) and keeping the first-discovered path on ties, exactly as
the source's successor enumeration does.
-/

namespace Cracken

/-! ### Association-list model of `HashMap<Vec<u8>, usize>` -/

/-- `HashMap::get`: first (unique) binding of the key, if any. -/
def mapLookup (m : List (List Nat × Nat)) (k : List Nat) : Option Nat :=
  match m with
  | [] => none
  | (k2, v) :: rest => if k2 = k then some v else mapLookup rest k

/-- `HashMap::insert`: replaces the value of an existing key, else appends. -/
def mapInsert (m : List (List Nat × Nat)) (k : List Nat) (v : Nat) :
    List (List Nat × Nat) :=
  match m with
  | [] => [(k, v)]
  | (k2, v2) :: rest =>
    if k2 = k then (k, v) :: rest else (k2, v2) :: mapInsert rest k v

/-- `HashMap::entry(k).or_insert(v)`: inserts only when the key is absent. -/
def entryOrInsert (m : List (List Nat × Nat)) (k : List Nat) (v : Nat) :
    List (List Nat × Nat) :=
  match mapLookup m k with
  | some _ => m
  | none => m ++ [(k, v)]

/-! ### `load_vocab` (src/password_entropy.rs lines 62-92)

The reader loop `reader.read_until(b'\n', &mut buffer)` delivers the file as
maximal chunks each ending in the byte `10`, except possibly a final
unterminated chunk; a return of `0` read bytes ends the loop.  `chunks`
reproduces that decomposition.
-/

/-- Accumulator-based splitting of a byte stream into `read_until` chunks.
`cur` holds the bytes of the current chunk in reverse. -/
def chunksGo (cur : List Nat) : List Nat → List (List Nat)
  | [] => if cur = [] then [] else [cur.reverse]
  | b :: rest =>
    if b = 10 then (10 :: cur).reverse :: chunksGo [] rest
    else chunksGo (b :: cur) rest

/-- The sequence of chunks `read_until(b'\n')` yields on the byte stream. -/
def chunks (s : List Nat) : List (List Nat) := chunksGo [] s

/-- One iteration of the `load_vocab` reader loop: `buffer.pop()` removes the
final byte of the chunk unconditionally (the `\n` when present, otherwise the
last content byte), the remainder is inserted with the current rank, and the
rank counter advances.  The `chunk = []` guard mirrors `pop().is_some()`
(a chunk produced by `read_until` is never empty). -/
def lvStep (acc : List (List Nat × Nat) × Nat) (chunk : List Nat) :
    List (List Nat × Nat) × Nat :=
  if chunk = [] then acc
  else (mapInsert acc.1 chunk.dropLast acc.2, acc.2 + 1)

/-- The vocab map read from the file, before the single-byte fallback fill;
ranks start at 1. -/
def vocabRead (file : List Nat) : List (List Nat × Nat) :=
  ((chunks file).foldl lvStep ([], 1)).1

/-- Fallback fill (lines 85-88): `missing_rank = word2rank.len() + 1` is
computed once from the map as read, then every byte `0..=255` is
`entry(...).or_insert`-ed with it. -/
def fallbackFill (m : List (List Nat × Nat)) : List (List Nat × Nat) :=
  (List.range 256).foldl (fun acc b => entryOrInsert acc [b] (m.length + 1)) m

/-- `load_vocab`, parameterised by the byte content of the vocab file
(success of `File::open` is assumed; an open failure propagates as an error
before any of the properties below apply). -/
def load_vocab (file : List Nat) : List (List Nat × Nat) :=
  fallbackFill (vocabRead file)

/-- Rank lookup in the loaded vocab. -/
def loadVocabLookup (file : List Nat) (k : List Nat) : Option Nat :=
  mapLookup (load_vocab file) k

/-- Number of lines the reader loop consumed (the `R` of the spec). -/
def linesRead (file : List Nat) : Nat := (chunks file).length

/-- A file consisting of the given lines, each terminated by `\n`. -/
def linesFile (ws : List (List Nat)) : List Nat :=
  (ws.map (fun w => w ++ [10])).flatten

/-! ### `password_mask_cost` (src/password_entropy.rs lines 45-60) -/

/-- `SYMBOLS_SPACE`: the 32 punctuation bytes
`!"#$%&'()*+,-./:;<=>?@[\]^_`{|}~` (line 11).  The space byte `0x20` is not a
member. -/
def SYMBOLS_SPACE : List Nat :=
  [33, 34, 35, 36, 37, 38, 39, 40, 41, 42, 43, 44, 45, 46, 47,
   58, 59, 60, 61, 62, 63, 64,
   91, 92, 93, 94, 95, 96,
   123, 124, 125, 126]

/-- Per-byte cost: `log2 10` for ASCII digits, `log2 26` for ASCII letters of
either case, `log2 (SYMBOLS_SPACE.length) = log2 32` for the punctuation
table, else `log2 256`. -/
noncomputable def maskCostByte (b : Nat) : ℝ :=
  if 48 ≤ b ∧ b ≤ 57 then Real.logb 2 10
  else if (65 ≤ b ∧ b ≤ 90) ∨ (97 ≤ b ∧ b ≤ 122) then Real.logb 2 26
  else if b ∈ SYMBOLS_SPACE then Real.logb 2 (SYMBOLS_SPACE.length)
  else Real.logb 2 256

/-- `password_mask_cost`: iterator `map` then `sum` (f64 `Sum` folds from the
left starting at `0.0`). -/
noncomputable def password_mask_cost (pwd : List Nat) : ℝ :=
  (pwd.map maskCostByte).foldl (· + ·) 0

/-! ### `String::from_utf8_lossy`

Invalid maximal subparts are replaced by U+FFFD (UTF-8 bytes `EF BF BD`),
following the substitution policy of Rust's std (one replacement per maximal
invalid subpart, one replacement for a truncated sequence at end of input).
-/

/-- UTF-8 encoding of U+FFFD. -/
def replacementChar : List Nat := [239, 191, 189]

/-- Is `b` a UTF-8 continuation byte `0x80..=0xBF`? -/
def isCont (b : Nat) : Bool := 128 ≤ b && b ≤ 191

/-- Valid range of the second byte of a 3-byte sequence with lead `b`. -/
def cont3Ok (b c : Nat) : Bool :=
  if b = 224 then 160 ≤ c && c ≤ 191
  else if b = 237 then 128 ≤ c && c ≤ 159
  else isCont c

/-- Valid range of the second byte of a 4-byte sequence with lead `b`. -/
def cont4Ok (b c : Nat) : Bool :=
  if b = 240 then 144 ≤ c && c ≤ 191
  else if b = 244 then 128 ≤ c && c ≤ 143
  else isCont c

/-- Byte-level model of `String::from_utf8_lossy(..).to_string()` composed
with re-extraction of the bytes: valid scalar sequences are copied, each
invalid maximal subpart becomes `replacementChar`. -/
def utf8Lossy : List Nat → List Nat
  | [] => []
  | b :: rest =>
    if b < 128 then b :: utf8Lossy rest
    else if 194 ≤ b && b ≤ 223 then
      match rest with
      | [] => replacementChar
      | c :: rest2 =>
        if isCont c then b :: c :: utf8Lossy rest2
        else replacementChar ++ utf8Lossy (c :: rest2)
    else if 224 ≤ b && b ≤ 239 then
      match rest with
      | [] => replacementChar
      | c :: rest2 =>
        if cont3Ok b c then
          match rest2 with
          | [] => replacementChar
          | d :: rest3 =>
            if isCont d then b :: c :: d :: utf8Lossy rest3
            else replacementChar ++ utf8Lossy (d :: rest3)
        else replacementChar ++ utf8Lossy (c :: rest2)
    else if 240 ≤ b && b ≤ 244 then
      match rest with
      | [] => replacementChar
      | c :: rest2 =>
        if cont4Ok b c then
          match rest2 with
          | [] => replacementChar
          | d :: rest3 =>
            if isCont d then
              match rest3 with
              | [] => replacementChar
              | e :: rest4 =>
                if isCont e then b :: c :: d :: e :: utf8Lossy rest4
                else replacementChar ++ utf8Lossy (e :: rest4)
            else replacementChar ++ utf8Lossy (d :: rest3)
        else replacementChar ++ utf8Lossy (c :: rest2)
    else replacementChar ++ utf8Lossy rest

/-! ### `compute_password_entropy` (src/password_entropy.rs lines 13-43) -/

/-- The slice `&raw_pwd[a..b]`. -/
def sliceOf (p : List Nat) (a b : Nat) : List Nat := (p.take b).drop a

/-- Keep the better (smaller rank-product) of two optional candidate paths,
preferring the first argument on ties: the first argument is always the
candidate discovered earlier in the longest-match-first successor scan. -/
def pickBetter (a b : Option (Nat × List Nat)) : Option (Nat × List Nat) :=
  match a, b with
  | some x, some y => if x.1 ≤ y.1 then some x else some y
  | some x, none => some x
  | none, y => y

/-- Cheapest cover of `p` from position `n` to `p.length`, as
`(product of segment ranks, list of cut positions after n)`.  Successors of
`n` are the positions `i` of `(n..=p.length).rev()` whose slice `p[n..i]` is a
vocab key, exactly as in the source's closure; the degenerate successor
`i = n` (empty slice) is omitted, since the A* search never takes that
self-loop (its weight is nonnegative, so it never improves an opened node).
The fuel argument only drives termination: each recursive call moves to a
strictly larger position, so `fuel = p.length - n` always suffices. -/
def bestFrom (M : List Nat → Option Nat) (p : List Nat) :
    Nat → Nat → Option (Nat × List Nat)
  | 0, n => if n = p.length then some (1, []) else none
  | fuel + 1, n =>
    if n = p.length then some (1, [])
    else
      ((List.range' (n + 1) (p.length - n)).reverse).foldr
        (fun i acc =>
          match M (sliceOf p n i), bestFrom M p fuel i with
          | some r, some (q, sub) => pickBetter (some (r * q, i :: sub)) acc
          | _, _ => acc)
        none

/-- The successor-scan step of `bestFrom` at recursion depth `fuel`, node `n`:
`bestFrom M p (fuel+1) n` folds this over the candidate positions.  Exposed as
a named function so the fold can be reasoned about. -/
def bfStep (M : List Nat → Option Nat) (p : List Nat) (fuel n : Nat)
    (i : Nat) (acc : Option (Nat × List Nat)) : Option (Nat × List Nat) :=
  match M (sliceOf p n i), bestFrom M p fuel i with
  | some r, some (q, sub) => pickBetter (some (r * q, i :: sub)) acc
  | _, _ => acc

/-- The node list of the path returned by the search (`best_path` in the
source), beginning with the start node `0`. -/
def best_path (M : List Nat → Option Nat) (p : List Nat) : Option (List Nat) :=
  (bestFrom M p p.length 0).map (fun x => 0 :: x.2)

/-- The segment-extraction loop of lines 35-41: `prev` starts at `0`, the
first path node is skipped, and each later node `i` contributes the slice
`p[prev..i]`. -/
def segmentsOfAux (p : List Nat) : Nat → List Nat → List (List Nat)
  | _, [] => []
  | prev, i :: rest => sliceOf p prev i :: segmentsOfAux p i rest

/-- Byte-level segments of a returned path. -/
def segmentsOf (p : List Nat) (path : List Nat) : List (List Nat) :=
  match path with
  | [] => []
  | _ :: rest => segmentsOfAux p 0 rest

/-- The ranks of the edges along a returned path, in path order (these are the
edge weights the search accumulated into the total cost). -/
def pathRanksAux (M : List Nat → Option Nat) (p : List Nat) :
    Nat → List Nat → List Nat
  | _, [] => []
  | prev, i :: rest => (M (sliceOf p prev i)).getD 1 :: pathRanksAux M p i rest

/-- Edge ranks of a full returned path (start node skipped as in
`segmentsOf`). -/
def pathRanks (M : List Nat → Option Nat) (p : List Nat) (path : List Nat) :
    List Nat :=
  match path with
  | [] => []
  | _ :: rest => pathRanksAux M p 0 rest

/-- Left-to-right accumulation of the edge weights `log2 rank`, starting from
`0`, in the order the search adds them (the deterministic f64 summation order
of the claim, in exact reals). -/
noncomputable def log2Sum (rs : List Nat) : ℝ :=
  rs.foldl (fun a r => a + Real.logb 2 (Nat.cast r)) 0

/-- The rank the loaded vocab assigns to a byte string (`1` as the irrelevant
default: every segment of a returned path is a present key). -/
def rankOf (file : List Nat) (s : List Nat) : Nat :=
  (loadVocabLookup file s).getD 1

/-- Byte-level segmentation produced by `compute_password_entropy` before the
per-segment `String::from_utf8_lossy` conversion. -/
def passwordSegmentation (file : List Nat) (pwd : List Nat) :
    Option (List (List Nat)) :=
  (best_path (loadVocabLookup file) pwd).map (segmentsOf pwd)

/-- `compute_password_entropy`, parameterised by the byte content of the vocab
file: the accumulated cost of the returned path together with the segments,
each segment converted with `String::from_utf8_lossy`. -/
noncomputable def compute_password_entropy (file : List Nat) (pwd : List Nat) :
    Option (ℝ × List (List Nat)) :=
  (best_path (loadVocabLookup file) pwd).map
    (fun path =>
      (log2Sum (pathRanks (loadVocabLookup file) pwd path),
       (segmentsOf pwd path).map utf8Lossy))

/-! ## Lemmas about the association-list map -/

theorem mapLookup_insert (m : List (List Nat × Nat)) (k2 k : List Nat) (v : Nat) :
    mapLookup (mapInsert m k2 v) k = if k2 = k then some v else mapLookup m k := by
  induction m with
  | nil =>
    by_cases hk : k2 = k <;> simp [mapInsert, mapLookup, hk]
  | cons hd tl ih =>
    obtain ⟨k3, v3⟩ := hd
    by_cases h3 : k3 = k2
    · by_cases hk : k2 = k
      · simp [mapInsert, mapLookup, h3, hk]
      · have h3k : ¬ k3 = k := by rw [h3]; exact hk
        simp [mapInsert, mapLookup, h3, hk, h3k]
    · by_cases h3k : k3 = k
      · have hk : ¬ k2 = k := by
          intro h
          rw [h] at h3
          exact h3 h3k
        have hk2 : ¬ k = k2 := fun h => hk h.symm
        simp [mapInsert, mapLookup, h3, h3k, hk, hk2]
      · simp [mapInsert, mapLookup, h3, h3k, ih]

theorem mapLookup_append_some {m : List (List Nat × Nat)} {k : List Nat} {v : Nat}
    (m2 : List (List Nat × Nat)) (h : mapLookup m k = some v) :
    mapLookup (m ++ m2) k = some v := by
  induction m with
  | nil => simp [mapLookup] at h
  | cons hd tl ih =>
    obtain ⟨k3, v3⟩ := hd
    by_cases h3 : k3 = k
    · simp [mapLookup, h3] at h ⊢
      exact h
    · simp [mapLookup, h3] at h ⊢
      exact ih h

theorem mapLookup_append_none {m : List (List Nat × Nat)} {k : List Nat}
    (m2 : List (List Nat × Nat)) (h : mapLookup m k = none) :
    mapLookup (m ++ m2) k = mapLookup m2 k := by
  induction m with
  | nil => simp [mapLookup]
  | cons hd tl ih =>
    obtain ⟨k3, v3⟩ := hd
    by_cases h3 : k3 = k
    · simp [mapLookup, h3] at h
    · simp [mapLookup, h3] at h ⊢
      exact ih h

theorem mapInsert_length {m : List (List Nat × Nat)} {k : List Nat} (v : Nat)
    (h : mapLookup m k = none) :
    (mapInsert m k v).length = m.length + 1 := by
  induction m with
  | nil => simp [mapInsert]
  | cons hd tl ih =>
    obtain ⟨k3, v3⟩ := hd
    by_cases h3 : k3 = k
    · simp [mapLookup, h3] at h
    · simp [mapLookup, h3] at h
      simp [mapInsert, h3, ih h]

theorem lookup_entryOrInsert_of_some {m : List (List Nat × Nat)} {k : List Nat}
    {v : Nat} (k2 : List Nat) (w : Nat) (h : mapLookup m k = some v) :
    mapLookup (entryOrInsert m k2 w) k = some v := by
  unfold entryOrInsert
  cases h2 : mapLookup m k2 with
  | some v2 => exact h
  | none => exact mapLookup_append_some _ h

theorem lookup_entryOrInsert_self {m : List (List Nat × Nat)} {k : List Nat}
    (w : Nat) (h : mapLookup m k = none) :
    mapLookup (entryOrInsert m k w) k = some w := by
  unfold entryOrInsert
  rw [h]
  rw [mapLookup_append_none _ h]
  simp [mapLookup]

theorem lookup_entryOrInsert_ne {m : List (List Nat × Nat)} {k k2 : List Nat}
    (w : Nat) (h : k2 ≠ k) :
    mapLookup (entryOrInsert m k2 w) k = mapLookup m k := by
  unfold entryOrInsert
  cases h2 : mapLookup m k2 with
  | some v2 => rfl
  | none =>
    cases h3 : mapLookup m k with
    | some v =>
      exact mapLookup_append_some _ h3
    | none =>
      rw [mapLookup_append_none _ h3]
      simp [mapLookup, h]

/-- All values of the map are positive (every rank the loader ever stores). -/
def ValuesGe (m : List (List Nat × Nat)) : Prop :=
  ∀ k v, mapLookup m k = some v → 1 ≤ v

theorem valuesGe_insert {m : List (List Nat × Nat)} {k : List Nat} {v : Nat}
    (hm : ValuesGe m) (hv : 1 ≤ v) : ValuesGe (mapInsert m k v) := by
  intro k2 v2 h
  rw [mapLookup_insert] at h
  by_cases hk : k = k2
  · simp [hk] at h
    omega
  · simp [hk] at h
    exact hm k2 v2 h

theorem valuesGe_entryOrInsert {m : List (List Nat × Nat)} {k : List Nat} {w : Nat}
    (hm : ValuesGe m) (hw : 1 ≤ w) : ValuesGe (entryOrInsert m k w) := by
  intro k2 v2 h
  unfold entryOrInsert at h
  cases h2 : mapLookup m k with
  | some v3 =>
    rw [h2] at h
    exact hm k2 v2 h
  | none =>
    rw [h2] at h
    cases h3 : mapLookup m k2 with
    | some v4 =>
      rw [mapLookup_append_some _ h3] at h
      cases h
      exact hm k2 v2 h3
    | none =>
      rw [mapLookup_append_none _ h3] at h
      by_cases hk : k = k2
      · simp [mapLookup, hk] at h
        omega
      · simp [mapLookup, hk] at h

/-! ## Lemmas about the fallback fill -/

theorem fbFold_preserve {k : List Nat} {v w : Nat} :
    ∀ (l : List Nat) (m : List (List Nat × Nat)), mapLookup m k = some v →
      mapLookup (l.foldl (fun acc b => entryOrInsert acc [b] w) m) k = some v := by
  intro l
  induction l with
  | nil => intro m h; exact h
  | cons b l ih =>
    intro m h
    exact ih _ (lookup_entryOrInsert_of_some _ _ h)

theorem fbFold_sets {b : Nat} {w : Nat} :
    ∀ (l : List Nat) (m : List (List Nat × Nat)), b ∈ l → mapLookup m [b] = none →
      mapLookup (l.foldl (fun acc c => entryOrInsert acc [c] w) m) [b] = some w := by
  intro l
  induction l with
  | nil => intro m h; simp at h
  | cons c l ih =>
    intro m hmem h
    rw [List.foldl_cons]
    by_cases hcb : c = b
    · rw [hcb]
      exact fbFold_preserve l _ (lookup_entryOrInsert_self _ h)
    · have hc : b ∈ l := by
        rcases List.mem_cons.mp hmem with hc | hc
        · exact absurd hc.symm hcb
        · exact hc
      refine ih _ hc ?_
      rw [lookup_entryOrInsert_ne _ ?_]
      · exact h
      · intro hh
        exact hcb (by injection hh)

theorem fbFold_other {k : List Nat} {w : Nat} :
    ∀ (l : List Nat) (m : List (List Nat × Nat)), (∀ b ∈ l, k ≠ [b]) →
      mapLookup (l.foldl (fun acc c => entryOrInsert acc [c] w) m) k = mapLookup m k := by
  intro l
  induction l with
  | nil => intro m _; rfl
  | cons c l ih =>
    intro m hk
    rw [List.foldl_cons]
    rw [ih _ (fun b hb => hk b (List.mem_cons_of_mem _ hb))]
    exact lookup_entryOrInsert_ne _ fun hh => hk c (List.mem_cons_self _ _) hh.symm

theorem fallbackFill_preserve {m : List (List Nat × Nat)} {k : List Nat} {v : Nat}
    (h : mapLookup m k = some v) : mapLookup (fallbackFill m) k = some v :=
  fbFold_preserve _ _ h

theorem fallbackFill_absent {m : List (List Nat × Nat)} {b : Nat}
    (hb : b < 256) (h : mapLookup m [b] = none) :
    mapLookup (fallbackFill m) [b] = some (m.length + 1) :=
  fbFold_sets _ _ (List.mem_range.mpr hb) h

theorem fallbackFill_other {m : List (List Nat × Nat)} {k : List Nat}
    (hk : ∀ b, k ≠ [b]) : mapLookup (fallbackFill m) k = mapLookup m k :=
  fbFold_other _ _ (fun b _ => hk b)

theorem fallbackFill_isSome {m : List (List Nat × Nat)} {b : Nat} (hb : b < 256) :
    (mapLookup (fallbackFill m) [b]).isSome := by
  cases h : mapLookup m [b] with
  | some v => rw [fallbackFill_preserve h]; rfl
  | none => rw [fallbackFill_absent hb h]; rfl

theorem valuesGe_fbFold {w : Nat} (hw : 1 ≤ w) :
    ∀ (l : List Nat) (m : List (List Nat × Nat)), ValuesGe m →
      ValuesGe (l.foldl (fun acc c => entryOrInsert acc [c] w) m) := by
  intro l
  induction l with
  | nil => intro m hm; exact hm
  | cons c l ih => intro m hm; exact ih _ (valuesGe_entryOrInsert hm hw)

/-! ## Lemmas about the `read_until` chunk decomposition -/

theorem chunksGo_nil (cur : List Nat) :
    chunksGo cur [] = if cur = [] then [] else [cur.reverse] := rfl

theorem chunksGo_cons (cur : List Nat) (b : Nat) (s : List Nat) :
    chunksGo cur (b :: s) =
      if b = 10 then (10 :: cur).reverse :: chunksGo [] s
      else chunksGo (b :: cur) s := rfl

theorem chunksGo_ne_nil :
    ∀ (s cur : List Nat) (c : List Nat), c ∈ chunksGo cur s → c ≠ [] := by
  intro s
  induction s with
  | nil =>
    intro cur c hc
    unfold chunksGo at hc
    by_cases h : cur = []
    · simp [h] at hc
    · simp [h] at hc
      simp [hc, h]
  | cons b s ih =>
    intro cur c hc
    unfold chunksGo at hc
    by_cases h : b = 10
    · simp [h] at hc
      rcases hc with hc | hc
      · simp [hc]
      · exact ih [] c hc
    · simp [h] at hc
      exact ih (b :: cur) c hc

theorem chunks_ne_nil {s : List Nat} {c : List Nat} (hc : c ∈ chunks s) : c ≠ [] :=
  chunksGo_ne_nil s [] c hc

theorem chunksGo_no_nl :
    ∀ (w cur : List Nat), 10 ∉ w →
      chunksGo cur w = if cur.reverse ++ w = [] then [] else [cur.reverse ++ w] := by
  intro w
  induction w with
  | nil =>
    intro cur _
    unfold chunksGo
    by_cases h : cur = [] <;> simp [h]
  | cons b w ih =>
    intro cur hw
    have hb : ¬ b = 10 := fun h => hw (by simp [h])
    have hw2 : 10 ∉ w := fun h => hw (List.mem_cons_of_mem _ h)
    unfold chunksGo
    simp only [hb, if_false]
    rw [ih (b :: cur) hw2]
    simp

theorem chunksGo_term :
    ∀ (w cur rest : List Nat), 10 ∉ w →
      chunksGo cur (w ++ 10 :: rest) =
        (cur.reverse ++ (w ++ [10])) :: chunksGo [] rest := by
  intro w
  induction w with
  | nil =>
    intro cur rest _
    rw [List.nil_append, chunksGo_cons]
    simp
  | cons b w ih =>
    intro cur rest hw
    have hb : ¬ b = 10 := fun h => hw (by simp [h])
    have hw2 : 10 ∉ w := fun h => hw (List.mem_cons_of_mem _ h)
    have hsplit : (b :: w) ++ 10 :: rest = b :: (w ++ 10 :: rest) := by simp
    rw [hsplit, chunksGo_cons]
    simp only [hb, if_false]
    rw [ih (b :: cur) rest hw2]
    simp

theorem chunks_linesFile_append :
    ∀ (ws : List (List Nat)) (t : List Nat), (∀ x ∈ ws, 10 ∉ x) →
      chunks (linesFile ws ++ t) = ws.map (fun w => w ++ [10]) ++ chunks t := by
  intro ws
  induction ws with
  | nil => intro t _; simp [linesFile]
  | cons w ws ih =>
    intro t hws
    have hw : 10 ∉ w := hws w (List.mem_cons_self _ _)
    have hws2 : ∀ x ∈ ws, 10 ∉ x := fun x hx => hws x (List.mem_cons_of_mem _ hx)
    have hfile : linesFile (w :: ws) ++ t = w ++ 10 :: (linesFile ws ++ t) := by
      simp [linesFile]
    rw [hfile]
    unfold chunks
    rw [chunksGo_term w [] (linesFile ws ++ t) hw]
    rw [List.reverse_nil, List.nil_append]
    have := ih t hws2
    unfold chunks at this
    rw [this]
    simp

theorem chunks_untermed {u : List Nat} (h10 : 10 ∉ u) (hne : u ≠ []) :
    chunks u = [u] := by
  unfold chunks
  rw [chunksGo_no_nl u [] h10]
  simp [hne]

/-! ## Lemmas about the `load_vocab` reader loop -/

theorem lvStep_ne {a : List (List Nat × Nat) × Nat} {c : List Nat} (hc : c ≠ []) :
    lvStep a c = (mapInsert a.1 c.dropLast a.2, a.2 + 1) := by
  unfold lvStep
  simp [hc]

theorem lvFold_rank :
    ∀ (cs : List (List Nat)) (a : List (List Nat × Nat) × Nat),
      (∀ c ∈ cs, c ≠ []) → (cs.foldl lvStep a).2 = a.2 + cs.length := by
  intro cs
  induction cs with
  | nil => intro a _; simp
  | cons c cs ih =>
    intro a hcs
    have hc : c ≠ [] := hcs c (List.mem_cons_self _ _)
    rw [List.foldl_cons, ih _ (fun x hx => hcs x (List.mem_cons_of_mem _ hx))]
    simp [lvStep, hc]
    omega

theorem lvFold_lookup_not_mem :
    ∀ (cs : List (List Nat)) (a : List (List Nat × Nat) × Nat) (k : List Nat),
      k ∉ cs.map List.dropLast →
      mapLookup ((cs.foldl lvStep a).1) k = mapLookup a.1 k := by
  intro cs
  induction cs with
  | nil => intro a k _; rfl
  | cons c cs ih =>
    intro a k hk
    have hk1 : ¬ c.dropLast = k := by
      intro h
      exact hk (by simp [h.symm])
    have hk2 : k ∉ cs.map List.dropLast := by
      intro h
      exact hk (by simp; right; simpa using h)
    rw [List.foldl_cons, ih _ _ hk2]
    unfold lvStep
    by_cases hc : c = []
    · simp [hc]
    · simp [hc, mapLookup_insert, hk1]

theorem lvFold_lookup_split (cs1 : List (List Nat)) (c : List Nat)
    (cs2 : List (List Nat)) (a : List (List Nat × Nat) × Nat)
    (h1 : ∀ x ∈ cs1, x ≠ []) (hc : c ≠ [])
    (h2 : c.dropLast ∉ cs2.map List.dropLast) :
    mapLookup (((cs1 ++ c :: cs2).foldl lvStep a).1) c.dropLast =
      some (a.2 + cs1.length) := by
  rw [List.foldl_append, List.foldl_cons]
  rw [lvFold_lookup_not_mem cs2 _ _ h2]
  rw [lvStep_ne hc]
  rw [mapLookup_insert]
  simp [lvFold_rank cs1 a h1]

theorem lvFold_length_nodup :
    ∀ (cs : List (List Nat)) (m : List (List Nat × Nat)) (r : Nat),
      (∀ c ∈ cs, c ≠ []) → (cs.map List.dropLast).Nodup →
      (∀ c ∈ cs, mapLookup m c.dropLast = none) →
      ((cs.foldl lvStep (m, r)).1).length = m.length + cs.length := by
  intro cs
  induction cs with
  | nil => intro m r _ _ _; simp
  | cons c cs ih =>
    intro m r hne hnd habs
    have hc : c ≠ [] := hne c (List.mem_cons_self _ _)
    have hcabs : mapLookup m c.dropLast = none := habs c (List.mem_cons_self _ _)
    rw [List.map_cons] at hnd
    obtain ⟨hcnot, hnd2⟩ := List.nodup_cons.mp hnd
    rw [List.foldl_cons, lvStep_ne hc]
    rw [ih _ (r + 1) (fun x hx => hne x (List.mem_cons_of_mem _ hx)) hnd2 ?_]
    · rw [mapInsert_length _ hcabs]
      simp [List.length_cons]
      omega
    · intro x hx
      rw [mapLookup_insert]
      have hxne : ¬ c.dropLast = x.dropLast := by
        intro h
        exact hcnot (h ▸ List.mem_map_of_mem _ hx)
      simp [hxne]
      exact habs x (List.mem_cons_of_mem _ hx)

theorem lvFold_valuesGe :
    ∀ (cs : List (List Nat)) (a : List (List Nat × Nat) × Nat),
      ValuesGe a.1 → 1 ≤ a.2 →
      ValuesGe ((cs.foldl lvStep a).1) ∧ 1 ≤ (cs.foldl lvStep a).2 := by
  intro cs
  induction cs with
  | nil => intro a h1 h2; exact ⟨h1, h2⟩
  | cons c cs ih =>
    intro a h1 h2
    rw [List.foldl_cons]
    refine ih _ ?_ ?_
    · unfold lvStep
      by_cases hc : c = []
      · simpa [hc] using h1
      · simp only [hc, if_false]
        exact valuesGe_insert h1 h2
    · unfold lvStep
      by_cases hc : c = [] <;> simp [hc] <;> omega

theorem load_vocab_valuesGe (file : List Nat) : ValuesGe (load_vocab file) := by
  unfold load_vocab
  have hbase : ValuesGe ((chunks file).foldl lvStep ([], 1)).1 :=
    (lvFold_valuesGe (chunks file) ([], 1) (fun k v h => by simp [mapLookup] at h)
      (le_refl 1)).1
  exact valuesGe_fbFold (by omega) _ _ hbase

theorem load_vocab_byte_isSome (file : List Nat) {b : Nat} (hb : b < 256) :
    (mapLookup (load_vocab file) [b]).isSome :=
  fallbackFill_isSome hb

/-! ## Lemmas about the search -/

theorem pickBetter_cases {a b : Option (Nat × List Nat)} {x : Nat × List Nat}
    (h : pickBetter a b = some x) : a = some x ∨ b = some x := by
  cases a with
  | none => exact Or.inr h
  | some y =>
    cases b with
    | none => exact Or.inl h
    | some z =>
      rw [show pickBetter (some y) (some z) =
        if y.1 ≤ z.1 then some y else some z from rfl] at h
      by_cases hle : y.1 ≤ z.1
      · rw [if_pos hle] at h
        exact Or.inl h
      · rw [if_neg hle] at h
        exact Or.inr h

theorem pickBetter_isSome_left (a : Nat × List Nat) (b : Option (Nat × List Nat)) :
    (pickBetter (some a) b).isSome := by
  cases b with
  | none => rfl
  | some z =>
    rw [show pickBetter (some a) (some z) =
      if a.1 ≤ z.1 then some a else some z from rfl]
    by_cases h : a.1 ≤ z.1 <;> simp [h]

theorem pickBetter_isSome_right (a : Option (Nat × List Nat)) (b : Nat × List Nat) :
    (pickBetter a (some b)).isSome := by
  cases a with
  | none => rfl
  | some y =>
    rw [show pickBetter (some y) (some b) =
      if y.1 ≤ b.1 then some y else some b from rfl]
    by_cases h : y.1 ≤ b.1 <;> simp [h]

theorem bestFrom_zero (M : List Nat → Option Nat) (p : List Nat) (n : Nat) :
    bestFrom M p 0 n = if n = p.length then some (1, []) else none := rfl

theorem bestFrom_succ (M : List Nat → Option Nat) (p : List Nat) (fuel n : Nat) :
    bestFrom M p (fuel + 1) n =
      if n = p.length then some (1, [])
      else ((List.range' (n + 1) (p.length - n)).reverse).foldr
        (bfStep M p fuel n) none := rfl

theorem bfStep_hit {M : List Nat → Option Nat} {p : List Nat} {fuel n i : Nat}
    {r q : Nat} {sub : List Nat} (acc : Option (Nat × List Nat))
    (hM : M (sliceOf p n i) = some r) (hB : bestFrom M p fuel i = some (q, sub)) :
    bfStep M p fuel n i acc = pickBetter (some (r * q, i :: sub)) acc := by
  unfold bfStep
  rw [hM, hB]

theorem bfStep_skipM {M : List Nat → Option Nat} {p : List Nat} {fuel n i : Nat}
    (acc : Option (Nat × List Nat)) (hM : M (sliceOf p n i) = none) :
    bfStep M p fuel n i acc = acc := by
  unfold bfStep
  rw [hM]

theorem bfStep_skipB {M : List Nat → Option Nat} {p : List Nat} {fuel n i : Nat}
    {r : Nat} (acc : Option (Nat × List Nat)) (hM : M (sliceOf p n i) = some r)
    (hB : bestFrom M p fuel i = none) :
    bfStep M p fuel n i acc = acc := by
  unfold bfStep
  rw [hM, hB]

theorem foldr_bfStep_sound {M : List Nat → Option Nat} {p : List Nat}
    {fuel n : Nat} (P : Nat × List Nat → Prop) :
    ∀ (cs : List Nat) (acc : Option (Nat × List Nat)),
      (∀ x, acc = some x → P x) →
      (∀ i ∈ cs, ∀ r q sub, M (sliceOf p n i) = some r →
        bestFrom M p fuel i = some (q, sub) → P (r * q, i :: sub)) →
      ∀ x, cs.foldr (bfStep M p fuel n) acc = some x → P x := by
  intro cs
  induction cs with
  | nil => intro acc hacc _ x hx; exact hacc x hx
  | cons i cs ih =>
    intro acc hacc hcand x hx
    rw [List.foldr_cons] at hx
    have hinner : ∀ y, cs.foldr (bfStep M p fuel n) acc = some y → P y :=
      ih acc hacc (fun j hj => hcand j (List.mem_cons_of_mem _ hj))
    cases hM : M (sliceOf p n i) with
    | none =>
      rw [bfStep_skipM _ hM] at hx
      exact hinner x hx
    | some r =>
      cases hB : bestFrom M p fuel i with
      | none =>
        rw [bfStep_skipB _ hM hB] at hx
        exact hinner x hx
      | some y =>
        obtain ⟨q, sub⟩ := y
        rw [bfStep_hit _ hM hB] at hx
        rcases pickBetter_cases hx with h | h
        · exact (Option.some.inj h) ▸ hcand i (List.mem_cons_self _ _) r q sub hM hB
        · exact hinner x h

theorem foldr_bfStep_isSome {M : List Nat → Option Nat} {p : List Nat}
    {fuel n : Nat} :
    ∀ (cs : List Nat) (acc : Option (Nat × List Nat)),
      (acc.isSome ∨ ∃ i ∈ cs, (M (sliceOf p n i)).isSome ∧
        (bestFrom M p fuel i).isSome) →
      (cs.foldr (bfStep M p fuel n) acc).isSome := by
  intro cs
  induction cs with
  | nil =>
    intro acc h
    rcases h with h | ⟨i, hi, _⟩
    · exact h
    · simp at hi
  | cons i cs ih =>
    intro acc h
    rw [List.foldr_cons]
    have hpres : ∀ (o : Option (Nat × List Nat)), o.isSome →
        (bfStep M p fuel n i o).isSome := by
      intro o ho
      cases hM : M (sliceOf p n i) with
      | none =>
        rw [bfStep_skipM _ hM]
        exact ho
      | some r =>
        cases hB : bestFrom M p fuel i with
        | none =>
          rw [bfStep_skipB _ hM hB]
          exact ho
        | some y =>
          obtain ⟨q, sub⟩ := y
          rw [bfStep_hit _ hM hB]
          exact pickBetter_isSome_left _ _
    rcases h with h | ⟨j, hj, hjM, hjB⟩
    · exact hpres _ (ih acc (Or.inl h))
    · rcases List.mem_cons.mp hj with rfl | hj2
      · obtain ⟨r, hM⟩ := Option.isSome_iff_exists.mp hjM
        obtain ⟨y, hB⟩ := Option.isSome_iff_exists.mp hjB
        obtain ⟨q, sub⟩ := y
        rw [bfStep_hit _ hM hB]
        exact pickBetter_isSome_left _ _
      · exact hpres _ (ih acc (Or.inr ⟨j, hj2, hjM, hjB⟩))

theorem sliceOf_single :
    ∀ (p : List Nat) (n : Nat) (h : n < p.length),
      sliceOf p n (n + 1) = [p.get ⟨n, h⟩] := by
  intro p
  induction p with
  | nil =>
    intro n h
    simp at h
  | cons a p ih =>
    intro n h
    cases n with
    | zero => simp [sliceOf]
    | succ n =>
      have h2 : n < p.length := by simpa using h
      have hih := ih n h2
      unfold sliceOf at hih ⊢
      rw [List.take_succ_cons, List.drop_succ_cons]
      rw [hih]
      simp

theorem sliceOf_append {p : List Nat} {a b c : Nat} (hab : a ≤ b) (hbc : b ≤ c)
    (hbp : b ≤ p.length) :
    sliceOf p a b ++ sliceOf p b c = sliceOf p a c := by
  unfold sliceOf
  have h1 : List.take b (List.take c p) = List.take b p := by
    rw [List.take_take, min_eq_left hbc]
  have h2 : List.take c p = List.take b p ++ List.drop b (List.take c p) := by
    conv_lhs => rw [← List.take_append_drop b (List.take c p)]
    rw [h1]
  conv_rhs => rw [h2]
  rw [List.drop_append_eq_append_drop]
  have h3 : a - (List.take b p).length = 0 := by
    rw [List.length_take]
    omega
  rw [h3, List.drop_zero]

theorem sliceOf_empty (p : List Nat) (n : Nat) : sliceOf p n n = [] := by
  unfold sliceOf
  apply List.drop_eq_nil_of_le
  rw [List.length_take]
  omega

theorem sliceOf_all (p : List Nat) : sliceOf p 0 p.length = p := by
  unfold sliceOf
  rw [List.drop_zero, List.take_length]

theorem bf_sound {M : List Nat → Option Nat} {p : List Nat} :
    ∀ (fuel n : Nat) (x : Nat × List Nat), bestFrom M p fuel n = some x →
      List.Chain (· < ·) n x.2 ∧ x.2.getLastD n = p.length := by
  intro fuel
  induction fuel with
  | zero =>
    intro n x hx
    rw [bestFrom_zero] at hx
    by_cases h : n = p.length
    · rw [if_pos h] at hx
      cases hx
      exact ⟨List.Chain.nil, h⟩
    · rw [if_neg h] at hx
      cases hx
  | succ fuel ih =>
    intro n x hx
    rw [bestFrom_succ] at hx
    by_cases h : n = p.length
    · rw [if_pos h] at hx
      cases hx
      exact ⟨List.Chain.nil, h⟩
    · rw [if_neg h] at hx
      refine foldr_bfStep_sound
        (fun y => List.Chain (· < ·) n y.2 ∧ y.2.getLastD n = p.length)
        _ none (fun y hy => by cases hy) ?_ x hx
      intro i hi r q sub hM hB
      have hmem := List.mem_reverse.mp hi
      have hrange := List.mem_range'_1.mp hmem
      have hni : n < i := by omega
      obtain ⟨hch, hlast⟩ := ih i (q, sub) hB
      refine ⟨List.Chain.cons hni hch, ?_⟩
      rw [List.getLastD_cons]
      exact hlast

theorem bf_total {M : List Nat → Option Nat} {p : List Nat}
    (hM : ∀ j : Fin p.length, (M [p.get j]).isSome) :
    ∀ (fuel n : Nat), p.length - n ≤ fuel → n ≤ p.length →
      (bestFrom M p fuel n).isSome := by
  intro fuel
  induction fuel with
  | zero =>
    intro n h1 h2
    have h : n = p.length := by omega
    rw [bestFrom_zero, if_pos h]
    rfl
  | succ fuel ih =>
    intro n h1 h2
    rw [bestFrom_succ]
    by_cases h : n = p.length
    · rw [if_pos h]
      rfl
    · rw [if_neg h]
      have hn : n < p.length := by omega
      apply foldr_bfStep_isSome
      refine Or.inr ⟨n + 1, ?_, ?_, ?_⟩
      · rw [List.mem_reverse]
        exact List.mem_range'_1.mpr ⟨by omega, by omega⟩
      · rw [sliceOf_single p n hn]
        exact hM ⟨n, hn⟩
      · exact ih (n + 1) (by omega) (by omega)

theorem chain_getLastD_le {L : Nat} :
    ∀ (l : List Nat) (n : Nat), List.Chain (· < ·) n l → l.getLastD n = L →
      n ≤ L := by
  intro l
  induction l with
  | nil =>
    intro n _ hlast
    simp at hlast
    omega
  | cons i l ih =>
    intro n hch hlast
    rw [List.chain_cons] at hch
    rw [List.getLastD_cons] at hlast
    have := ih i hch.2 hlast
    omega

theorem segmentsOfAux_flatten {p : List Nat} :
    ∀ (rest : List Nat) (prev : Nat), List.Chain (· < ·) prev rest →
      rest.getLastD prev = p.length →
      (segmentsOfAux p prev rest).flatten = sliceOf p prev p.length := by
  intro rest
  induction rest with
  | nil =>
    intro prev _ hlast
    simp at hlast
    rw [hlast]
    unfold segmentsOfAux
    rw [List.flatten_nil, sliceOf_empty]
  | cons i rest ih =>
    intro prev hch hlast
    rw [List.chain_cons] at hch
    rw [List.getLastD_cons] at hlast
    have hi_le : i ≤ p.length := chain_getLastD_le rest i hch.2 hlast
    unfold segmentsOfAux
    rw [List.flatten_cons]
    rw [ih i hch.2 hlast]
    exact sliceOf_append (le_of_lt hch.1) hi_le hi_le

theorem pathRanksAux_eq {M : List Nat → Option Nat} {p : List Nat} :
    ∀ (rest : List Nat) (prev : Nat),
      pathRanksAux M p prev rest =
        (segmentsOfAux p prev rest).map (fun s => (M s).getD 1) := by
  intro rest
  induction rest with
  | nil => intro prev; rfl
  | cons i rest ih =>
    intro prev
    unfold pathRanksAux segmentsOfAux
    rw [List.map_cons, ih i]

theorem pathRanksAux_mem_ge_one {M : List Nat → Option Nat}
    (hM : ∀ k v, M k = some v → 1 ≤ v) {p : List Nat} :
    ∀ (rest : List Nat) (prev r : Nat), r ∈ pathRanksAux M p prev rest →
      1 ≤ r := by
  intro rest
  induction rest with
  | nil =>
    intro prev r h
    unfold pathRanksAux at h
    simp at h
  | cons i rest ih =>
    intro prev r h
    unfold pathRanksAux at h
    rcases List.mem_cons.mp h with h | h
    · rw [h]
      cases hE : M (sliceOf p prev i) with
      | none => simp
      | some v =>
        simp only [Option.getD_some]
        exact hM _ _ hE
    · exact ih i r h

theorem log2Sum_foldl_nonneg :
    ∀ (rs : List Nat) (a : ℝ), 0 ≤ a → (∀ r ∈ rs, 1 ≤ r) →
      0 ≤ rs.foldl (fun x r => x + Real.logb 2 (Nat.cast r)) a := by
  intro rs
  induction rs with
  | nil =>
    intro a ha _
    simpa using ha
  | cons r rs ih =>
    intro a ha hrs
    rw [List.foldl_cons]
    refine ih _ ?_ (fun x hx => hrs x (List.mem_cons_of_mem _ hx))
    have h1 : (1 : ℝ) ≤ (r : ℝ) := by
      exact_mod_cast hrs r (List.mem_cons_self _ _)
    have h2 := Real.logb_nonneg (by norm_num : (1:ℝ) < 2) h1
    linarith

theorem log2Sum_nonneg {rs : List Nat} (h : ∀ r ∈ rs, 1 ≤ r) : 0 ≤ log2Sum rs :=
  log2Sum_foldl_nonneg rs 0 le_rfl h

/-! ## Lemmas about `password_mask_cost` -/

theorem foldl_add_shift :
    ∀ (l : List ℝ) (a : ℝ), l.foldl (· + ·) a = a + l.foldl (· + ·) 0 := by
  intro l
  induction l with
  | nil => intro a; simp
  | cons x l ih =>
    intro a
    rw [List.foldl_cons, List.foldl_cons, ih (a + x), ih (0 + x)]
    ring

theorem password_mask_cost_cons (b : Nat) (pwd : List Nat) :
    password_mask_cost (b :: pwd) = maskCostByte b + password_mask_cost pwd := by
  unfold password_mask_cost
  rw [List.map_cons, List.foldl_cons, foldl_add_shift]
  rw [zero_add]

theorem password_mask_cost_nil : password_mask_cost [] = 0 := rfl

/-! ## Decomposition and small-input evaluation of the solver -/

theorem compute_some_parts {file pwd : List Nat} {c : ℝ} {segs : List (List Nat)}
    (h : compute_password_entropy file pwd = some (c, segs)) :
    ∃ x, bestFrom (loadVocabLookup file) pwd pwd.length 0 = some x ∧
      c = log2Sum (pathRanksAux (loadVocabLookup file) pwd 0 x.2) ∧
      segs = (segmentsOfAux pwd 0 x.2).map utf8Lossy := by
  unfold compute_password_entropy best_path at h
  cases hb : bestFrom (loadVocabLookup file) pwd pwd.length 0 with
  | none =>
    rw [hb] at h
    simp at h
  | some x =>
    rw [hb] at h
    simp only [Option.map_some'] at h
    obtain ⟨hc, hs⟩ := Prod.mk.injEq .. ▸ Option.some.inj h
    exact ⟨x, rfl, hc.symm, hs.symm⟩

theorem segmentation_some_parts {file pwd : List Nat} {bsegs : List (List Nat)}
    (h : passwordSegmentation file pwd = some bsegs) :
    ∃ x, bestFrom (loadVocabLookup file) pwd pwd.length 0 = some x ∧
      bsegs = segmentsOfAux pwd 0 x.2 := by
  unfold passwordSegmentation best_path at h
  cases hb : bestFrom (loadVocabLookup file) pwd pwd.length 0 with
  | none =>
    rw [hb] at h
    simp at h
  | some x =>
    rw [hb] at h
    simp only [Option.map_some'] at h
    exact ⟨x, rfl, (Option.some.inj h).symm⟩

theorem segmentation_of_bestFrom {file pwd : List Nat} {x : Nat × List Nat}
    (hb : bestFrom (loadVocabLookup file) pwd pwd.length 0 = some x) :
    passwordSegmentation file pwd = some (segmentsOfAux pwd 0 x.2) := by
  unfold passwordSegmentation best_path
  rw [hb]
  rfl

theorem bestFrom_single {M : List Nat → Option Nat} {b r : Nat}
    (h : M [b] = some r) :
    bestFrom M [b] 1 0 = some (r * 1, [1]) := by
  rw [bestFrom_succ, if_neg (by simp)]
  rw [show (List.range' (0 + 1) (([b] : List Nat).length - 0)).reverse = [1]
    from rfl]
  rw [List.foldr_cons, List.foldr_nil]
  rw [bfStep_hit none (show M (sliceOf [b] 0 1) = some r from h)
    (show bestFrom M [b] 0 1 = some (1, []) from rfl)]
  rfl

theorem compute_single {file : List Nat} {b r : Nat}
    (h : loadVocabLookup file [b] = some r) :
    compute_password_entropy file [b] = some (log2Sum [r * 1], [utf8Lossy [b]]) := by
  unfold compute_password_entropy best_path
  rw [show (([b] : List Nat)).length = 1 from rfl, bestFrom_single h]
  simp only [Option.map_some']
  have h1 : pathRanks (loadVocabLookup file) [b] (0 :: [1]) = [r * 1] := by
    unfold pathRanks pathRanksAux
    rw [show sliceOf [b] 0 1 = [b] from rfl, h]
    simp [pathRanksAux]
  have h2 : segmentsOf [b] (0 :: [1]) = [[b]] := rfl
  rw [show ((0 : Nat) :: (r * 1, [1]).2) = [0, 1] from rfl] at *
  rw [show ([0, 1] : List Nat) = 0 :: [1] from rfl]
  rw [h1, h2]
  rfl

theorem bestFrom_double {M : List Nat → Option Nat} {b1 b2 r1 r2 : Nat}
    (hpair : M [b1, b2] = none) (h1 : M [b1] = some r1) (h2 : M [b2] = some r2) :
    bestFrom M [b1, b2] 2 0 = some (r1 * (r2 * 1), [1, 2]) := by
  have hB1 : bestFrom M [b1, b2] 1 1 = some (r2 * 1, [2]) := by
    rw [bestFrom_succ, if_neg (by simp)]
    rw [show (List.range' (1 + 1) (([b1, b2] : List Nat).length - 1)).reverse = [2]
      from rfl]
    rw [List.foldr_cons, List.foldr_nil]
    rw [bfStep_hit none (show M (sliceOf [b1, b2] 1 2) = some r2 from h2)
      (show bestFrom M [b1, b2] 0 2 = some (1, []) from rfl)]
    rfl
  rw [bestFrom_succ, if_neg (by simp)]
  rw [show (List.range' (0 + 1) (([b1, b2] : List Nat).length - 0)).reverse = [2, 1]
    from rfl]
  rw [List.foldr_cons, List.foldr_cons, List.foldr_nil]
  rw [bfStep_hit none (show M (sliceOf [b1, b2] 0 1) = some r1 from h1) hB1]
  rw [bfStep_skipM _ (show M (sliceOf [b1, b2] 0 2) = none from hpair)]
  rfl

theorem compute_double {file : List Nat} {b1 b2 r1 r2 : Nat}
    (hpair : loadVocabLookup file [b1, b2] = none)
    (h1 : loadVocabLookup file [b1] = some r1)
    (h2 : loadVocabLookup file [b2] = some r2) :
    compute_password_entropy file [b1, b2] =
      some (log2Sum [r1, r2 * 1], [utf8Lossy [b1], utf8Lossy [b2]]) := by
  unfold compute_password_entropy best_path
  rw [show (([b1, b2] : List Nat)).length = 2 from rfl, bestFrom_double hpair h1 h2]
  simp only [Option.map_some']
  have hp : pathRanks (loadVocabLookup file) [b1, b2] (0 :: [1, 2]) = [r1, r2 * 1] := by
    unfold pathRanks pathRanksAux
    rw [show sliceOf [b1, b2] 0 1 = [b1] from rfl, h1]
    unfold pathRanksAux
    rw [show sliceOf [b1, b2] 1 2 = [b2] from rfl, h2]
    simp [pathRanksAux]
  have hs : segmentsOf [b1, b2] (0 :: [1, 2]) = [[b1], [b2]] := rfl
  rw [show ((0 : Nat) :: (r1 * (r2 * 1), [1, 2]).2) = 0 :: [1, 2] from rfl]
  rw [hp, hs]
  rfl

theorem compute_nil (file : List Nat) :
    compute_password_entropy file [] = some (0, []) := rfl

theorem lvFold_domain :
    ∀ (cs : List (List Nat)) (a : List (List Nat × Nat) × Nat) (k : List Nat),
      (∀ c ∈ cs, c ≠ []) →
      (mapLookup ((cs.foldl lvStep a).1) k ≠ none ↔
        k ∈ cs.map List.dropLast ∨ mapLookup a.1 k ≠ none) := by
  intro cs
  induction cs with
  | nil => intro a k _; simp
  | cons c cs ih =>
    intro a k hne
    have hc : c ≠ [] := hne c (List.mem_cons_self _ _)
    rw [List.foldl_cons, lvStep_ne hc]
    rw [ih _ k (fun x hx => hne x (List.mem_cons_of_mem _ hx))]
    rw [List.map_cons, List.mem_cons]
    rw [show (mapInsert a.1 c.dropLast a.2, a.2 + 1).1 = mapInsert a.1 c.dropLast a.2
      from rfl]
    rw [mapLookup_insert]
    by_cases hck : c.dropLast = k
    · simp [hck]
    · have hkc : ¬ k = c.dropLast := fun h => hck h.symm
      simp only [hck, if_false, hkc, false_or]

theorem loadVocabLookup_empty_byte {b : Nat} (hb : b < 256) :
    loadVocabLookup [] [b] = some 1 := by
  unfold loadVocabLookup load_vocab
  have h : mapLookup (vocabRead []) [b] = none := rfl
  rw [fallbackFill_absent hb h]
  rfl

theorem loadVocabLookup_empty_pair (b1 b2 : Nat) :
    loadVocabLookup [] [b1, b2] = none := by
  unfold loadVocabLookup load_vocab
  rw [fallbackFill_other (fun b hcontra => by simp at hcontra)]
  rfl

/-! ## Claim theorems -/

/-- Claim C1, counterexample: the claim states that the segmentation returned
by `compute_password_entropy` concatenates back to exactly the input even when
a multi-byte UTF-8 character is split across segment boundaries.  It is false:
for the two-byte character `é` (`C3 A9`) under the empty smartlist, the two
single-byte segments are each converted with `String::from_utf8_lossy`, so the
returned strings concatenate to two U+FFFD replacement characters
(`EF BF BD EF BF BD`), not to the input bytes. -/
theorem c1_counterexample :
    (compute_password_entropy [] [195, 169]).map (fun r => r.2.flatten) =
      some [239, 191, 189, 239, 191, 189] ∧
    (compute_password_entropy [] [195, 169]).map (fun r => r.2.flatten) ≠
      some [195, 169] := by
  have hpair : loadVocabLookup [] [195, 169] = none := loadVocabLookup_empty_pair _ _
  have h1 : loadVocabLookup [] [195] = some 1 := loadVocabLookup_empty_byte (by omega)
  have h2 : loadVocabLookup [] [169] = some 1 := loadVocabLookup_empty_byte (by omega)
  have hc := compute_double hpair h1 h2
  rw [hc]
  simp only [Option.map_some']
  constructor
  · rfl
  · decide

/-- Claim C1, amended: the byte-level segmentation of the returned path always
concatenates back to exactly the input; the strings the function returns are
the per-segment `from_utf8_lossy` conversions of those byte segments (hence
equal to the input exactly when every segment is valid UTF-8, as in every
ASCII password). -/
theorem c1_segments_concat (file pwd : List Nat) (c : ℝ) (segs : List (List Nat))
    (h : compute_password_entropy file pwd = some (c, segs)) :
    ∃ bsegs, passwordSegmentation file pwd = some bsegs ∧
      bsegs.flatten = pwd ∧ segs = bsegs.map utf8Lossy := by
  obtain ⟨x, hb, hc, hs⟩ := compute_some_parts h
  refine ⟨segmentsOfAux pwd 0 x.2, segmentation_of_bestFrom hb, ?_, hs⟩
  obtain ⟨hch, hlast⟩ := bf_sound pwd.length 0 x hb
  rw [segmentsOfAux_flatten x.2 0 hch hlast, sliceOf_all]

/-- Witness for C1's amended theorem at the concrete password `a` and the
empty smartlist file. -/
theorem c1_segments_concat_witness :
    ∃ bsegs, passwordSegmentation [] [97] = some bsegs ∧
      bsegs.flatten = [97] ∧ [[97]] = bsegs.map utf8Lossy := by
  have h97 : loadVocabLookup [] [97] = some 1 := loadVocabLookup_empty_byte (by omega)
  have hc := compute_single h97
  rw [show utf8Lossy [97] = [97] from rfl] at hc
  exact c1_segments_concat [] [97] (log2Sum [1 * 1]) [[97]] hc

/-- Claim C2: for every byte-string password (provided the smartlist file
loads), the hybrid solver returns a result — the single-byte fallback cover
always exists because every byte value `0x00..=0xFF` is a key of the loaded
vocab, so the `"bad characters in password"` error branch is unreachable. -/
theorem c2_solver_total (file pwd : List Nat) (hp : ∀ b ∈ pwd, b < 256) :
    (compute_password_entropy file pwd).isSome := by
  unfold compute_password_entropy best_path
  have hM : ∀ j : Fin pwd.length, ((loadVocabLookup file) [pwd.get j]).isSome := by
    intro j
    exact load_vocab_byte_isSome file (hp _ (pwd.get_mem _ _))
  have htot := bf_total hM pwd.length 0 (by omega) (by omega)
  obtain ⟨x, hx⟩ := Option.isSome_iff_exists.mp htot
  rw [hx]
  rfl

/-- Witness for C2 at the concrete password byte `0xC8` (not valid UTF-8 on
its own) and the empty smartlist file. -/
theorem c2_solver_total_witness :
    (∀ b ∈ ([200] : List Nat), b < 256) ∧
      (compute_password_entropy [] [200]).isSome :=
  ⟨by decide, c2_solver_total [] [200] (by decide)⟩

/-- Claim C3, counterexample: the claim states that every byte of the
33-entry symbol-space class (the 32 punctuation bytes plus the space byte
`0x20`) costs `log2 33`.  It is false: `SYMBOLS_SPACE` has 32 entries and does
not contain the space byte, so a password consisting of one space costs
`log2 256`, which is not `log2 33`. -/
theorem c3_counterexample :
    password_mask_cost [32] = Real.logb 2 256 ∧
      Real.logb 2 256 ≠ Real.logb 2 33 := by
  constructor
  · unfold password_mask_cost
    rw [List.map_cons, List.map_nil, List.foldl_cons, List.foldl_nil, zero_add]
    unfold maskCostByte
    norm_num [SYMBOLS_SPACE]
  · intro h
    have h2 : Real.logb 2 33 < Real.logb 2 256 :=
      Real.logb_lt_logb (by norm_num) (by norm_num) (by norm_num)
    rw [h] at h2
    exact lt_irrefl _ h2

/-- Claim C3, amended: the per-byte charset mask cost is `log2 10` for ASCII
digits, `log2 26` for ASCII letters of either case, `log2 32` for the 32
punctuation bytes of `SYMBOLS_SPACE` (the space byte `0x20` is not in the
class and costs `log2 256`), and `log2 256` for every other byte; the
password's mask cost is the left-to-right sum of the per-byte terms. -/
theorem c3_mask_cost_amended :
    (∀ b : Nat,
      ((48 ≤ b ∧ b ≤ 57) → maskCostByte b = Real.logb 2 10) ∧
      (((65 ≤ b ∧ b ≤ 90) ∨ (97 ≤ b ∧ b ≤ 122)) →
        maskCostByte b = Real.logb 2 26) ∧
      (b ∈ SYMBOLS_SPACE → maskCostByte b = Real.logb 2 32) ∧
      (b = 32 → maskCostByte b = Real.logb 2 256) ∧
      (¬(48 ≤ b ∧ b ≤ 57) → ¬((65 ≤ b ∧ b ≤ 90) ∨ (97 ≤ b ∧ b ≤ 122)) →
        b ∉ SYMBOLS_SPACE → maskCostByte b = Real.logb 2 256)) ∧
    (∀ (b : Nat) (pwd : List Nat),
      password_mask_cost (b :: pwd) = maskCostByte b + password_mask_cost pwd) := by
  constructor
  · intro b
    refine ⟨?_, ?_, ?_, ?_, ?_⟩
    · intro h
      unfold maskCostByte
      rw [if_pos h]
    · intro h
      have hd : ¬(48 ≤ b ∧ b ≤ 57) := by omega
      unfold maskCostByte
      rw [if_neg hd, if_pos h]
    · intro h
      have hnum : b = 33 ∨ b = 34 ∨ b = 35 ∨ b = 36 ∨ b = 37 ∨ b = 38 ∨ b = 39 ∨
          b = 40 ∨ b = 41 ∨ b = 42 ∨ b = 43 ∨ b = 44 ∨ b = 45 ∨ b = 46 ∨ b = 47 ∨
          b = 58 ∨ b = 59 ∨ b = 60 ∨ b = 61 ∨ b = 62 ∨ b = 63 ∨ b = 64 ∨
          b = 91 ∨ b = 92 ∨ b = 93 ∨ b = 94 ∨ b = 95 ∨ b = 96 ∨
          b = 123 ∨ b = 124 ∨ b = 125 ∨ b = 126 := by
        simpa [SYMBOLS_SPACE] using h
      have hd : ¬(48 ≤ b ∧ b ≤ 57) := by omega
      have ha : ¬((65 ≤ b ∧ b ≤ 90) ∨ (97 ≤ b ∧ b ≤ 122)) := by omega
      unfold maskCostByte
      rw [if_neg hd, if_neg ha, if_pos h]
      norm_num [SYMBOLS_SPACE]
    · intro h
      rw [h]
      unfold maskCostByte
      norm_num [SYMBOLS_SPACE]
    · intro hd ha hs
      unfold maskCostByte
      rw [if_neg hd, if_neg ha, if_neg hs]
  · exact password_mask_cost_cons

/-- Witness for C3's amended theorem: a digit byte, a punctuation byte, and
the one-step sum decomposition, all at concrete inputs. -/
theorem c3_mask_cost_amended_witness :
    ((48 ≤ 48 ∧ 48 ≤ 57) ∧ maskCostByte 48 = Real.logb 2 10) ∧
    ((33 : Nat) ∈ SYMBOLS_SPACE ∧ maskCostByte 33 = Real.logb 2 32) ∧
    password_mask_cost (32 :: [])
      = maskCostByte 32 + password_mask_cost [] :=
  ⟨⟨by decide, (c3_mask_cost_amended.1 48).1 (by decide)⟩,
   ⟨by decide, (c3_mask_cost_amended.1 33).2.2.1 (by decide)⟩,
   c3_mask_cost_amended.2 32 []⟩

/-- Claim C5, counterexample: the claim states that after reading `R` lines,
every absent single-byte key gets rank exactly `R + 1`, also with duplicate
lines.  It is false: the code uses `word2rank.len() + 1`, computed after
duplicate keys collapsed.  For the file `a\na\n`, two lines are read but the
map holds one entry, so byte `0x00` receives rank `2`, not `R + 1 = 3`. -/
theorem c5_counterexample :
    linesRead [97, 10, 97, 10] = 2 ∧
    mapLookup (load_vocab [97, 10, 97, 10]) [0] = some 2 ∧
    ¬ mapLookup (load_vocab [97, 10, 97, 10]) [0] = some (2 + 1) := by
  have h0 : mapLookup (vocabRead [97, 10, 97, 10]) [0] = none := by decide
  have hlen : (vocabRead [97, 10, 97, 10]).length = 1 := by decide
  have h2 : mapLookup (load_vocab [97, 10, 97, 10]) [0] = some 2 := by
    have hfb := fallbackFill_absent (show (0 : Nat) < 256 by decide) h0
    rw [hlen] at hfb
    exact hfb
  refine ⟨by decide, h2, ?_⟩
  rw [h2]
  simp

/-- Claim C5, amended: after loading, every absent single-byte key `[b]`
(`b < 256`) receives rank `D + 1` where `D` is the number of entries of the
map as read (distinct keys, later duplicates having overwritten earlier
ranks without growing the map); present single-byte keys keep their stored
rank; and when the stripped lines are pairwise distinct, `D` equals the
number of lines read, recovering the claim's `R + 1`. -/
theorem c5_fallback_rank (file : List Nat) (b : Nat) (hb : b < 256) :
    (mapLookup (vocabRead file) [b] = none →
      mapLookup (load_vocab file) [b] = some ((vocabRead file).length + 1)) ∧
    (∀ v, mapLookup (vocabRead file) [b] = some v →
      mapLookup (load_vocab file) [b] = some v) ∧
    (((chunks file).map List.dropLast).Nodup →
      (vocabRead file).length = linesRead file) := by
  refine ⟨?_, ?_, ?_⟩
  · intro h
    exact fallbackFill_absent hb h
  · intro v h
    exact fallbackFill_preserve h
  · intro hnd
    unfold vocabRead linesRead
    rw [lvFold_length_nodup (chunks file) [] 1 (fun c hc => chunks_ne_nil hc) hnd
      (fun c _ => rfl)]
    simp

/-- Witness for C5's amended theorem: file `a\n`, absent byte `0x00` receives
rank `1 + 1 = 2`. -/
theorem c5_fallback_rank_witness :
    (0 : Nat) < 256 ∧ mapLookup (vocabRead [97, 10]) [0] = none ∧
      mapLookup (load_vocab [97, 10]) [0] = some ((vocabRead [97, 10]).length + 1) :=
  ⟨by decide, by decide, (c5_fallback_rank [97, 10] 0 (by decide)).1 (by decide)⟩

/-- Claim C6, counterexample: the claim states that only a trailing `\n` is
stripped and that a final line with no trailing `\n` is accepted as a key
with its bytes intact.  It is false: `buffer.pop()` removes the final byte of
every chunk unconditionally, so for the file `ab` (no trailing newline) the
key `ab` is absent and the key `a` holds rank 1. -/
theorem c6_counterexample :
    mapLookup (load_vocab [97, 98]) [97, 98] = none ∧
      mapLookup (load_vocab [97, 98]) [97] = some 1 := by
  constructor
  · have h : mapLookup (vocabRead [97, 98]) [97, 98] = none := by decide
    have hk : ∀ b : Nat, ([97, 98] : List Nat) ≠ [b] := by
      intro b hcontra
      have hlen := congrArg List.length hcontra
      simp at hlen
    rw [show load_vocab [97, 98] = fallbackFill (vocabRead [97, 98]) from rfl]
    rw [fallbackFill_other hk]
    exact h
  · exact fallbackFill_preserve
      (show mapLookup (vocabRead [97, 98]) [97] = some 1 by decide)

/-- Claim C6, amended: every chunk the reader delivers loses its final byte
before becoming a key — for a `\n`-terminated line exactly the `\n`, for an
unterminated final line its last content byte.  Hence for a file of
`\n`-terminated lines `w :: ws` followed by an unterminated tail `u`, the
keys read are exactly the lines (`\n` stripped) together with `u.dropLast`,
and the first line receives rank 1 (kept whenever no later duplicate
overwrites it). -/
theorem c6_vocab_lines (ws : List (List Nat)) (u w : List Nat)
    (hw : 10 ∉ w) (hws : ∀ x ∈ ws, 10 ∉ x) (hu : 10 ∉ u) (hune : u ≠ []) :
    (∀ k, mapLookup (vocabRead (linesFile (w :: ws) ++ u)) k ≠ none ↔
        (k ∈ w :: ws ∨ k = u.dropLast)) ∧
    (w ∉ ws → w ≠ u.dropLast →
      mapLookup (load_vocab (linesFile (w :: ws) ++ u)) w = some 1) := by
  have hall : ∀ x ∈ w :: ws, 10 ∉ x := by
    intro x hx
    rcases List.mem_cons.mp hx with rfl | hx2
    · exact hw
    · exact hws x hx2
  have hchunks : chunks (linesFile (w :: ws) ++ u) =
      (w :: ws).map (fun x => x ++ [10]) ++ [u] := by
    rw [chunks_linesFile_append (w :: ws) u hall, chunks_untermed hu hune]
  have hne : ∀ c ∈ (w :: ws).map (fun x => x ++ [10]) ++ [u], c ≠ [] := by
    intro c hc
    rcases List.mem_append.mp hc with hc | hc
    · obtain ⟨x, _, rfl⟩ := List.mem_map.mp hc
      simp
    · rw [List.mem_singleton.mp hc]
      exact hune
  have hfun : (List.dropLast ∘ fun x : List Nat => x ++ [10]) = fun x => x := by
    funext x
    simp [List.dropLast_concat]
  have hkeys : ((w :: ws).map (fun x => x ++ [10]) ++ [u]).map List.dropLast =
      (w :: ws) ++ [u.dropLast] := by
    rw [List.map_append, List.map_map, hfun, List.map_id']
    rfl
  constructor
  · intro k
    unfold vocabRead
    rw [hchunks]
    rw [lvFold_domain _ ([], 1) k hne]
    rw [hkeys]
    simp [mapLookup, or_assoc]
  · intro hnotin hnotu
    have hsplit : (w :: ws).map (fun x => x ++ [10]) ++ [u] =
        [] ++ (w ++ [10]) :: (ws.map (fun x => x ++ [10]) ++ [u]) := by
      simp
    have hnotmem : (w ++ [10]).dropLast ∉
        (ws.map (fun x => x ++ [10]) ++ [u]).map List.dropLast := by
      rw [List.dropLast_concat, List.map_append, List.map_map, hfun, List.map_id']
      intro hmem
      rcases List.mem_append.mp hmem with hmem | hmem
      · exact hnotin hmem
      · exact hnotu (List.mem_singleton.mp hmem)
    apply fallbackFill_preserve
    unfold vocabRead
    rw [hchunks, hsplit]
    have hlk := lvFold_lookup_split [] (w ++ [10])
      (ws.map (fun x => x ++ [10]) ++ [u]) ([], 1)
      (fun x hx => absurd hx (List.not_mem_nil x)) (by simp) hnotmem
    rw [List.dropLast_concat] at hlk
    simpa using hlk

/-- Witness for C6's amended theorem: file `a\ncd` — key `a` has rank 1, and
the key set is `{a, c}` (the unterminated final line `cd` lost its `d`). -/
theorem c6_vocab_lines_witness :
    (mapLookup (vocabRead (linesFile [[97]] ++ [99, 100])) [99] ≠ none ↔
      ([99] ∈ ([[97]] : List (List Nat)) ∨ ([99] : List Nat) = [99, 100].dropLast)) ∧
    mapLookup (load_vocab (linesFile [[97]] ++ [99, 100])) [97] = some 1 := by
  have h := c6_vocab_lines [] [99, 100] [97] (by decide) (by intro x hx; simp at hx)
    (by decide) (by decide)
  exact ⟨h.1 [99], h.2 (by simp) (by decide)⟩

/-- Claim C7, counterexample: the claim states that a duplicated subword
keeps the rank of its first occurrence.  It is false: `HashMap::insert`
replaces the stored rank, so for the file `a\na\n` the key `a` maps to rank
2 (the last occurrence), not rank 1. -/
theorem c7_counterexample :
    mapLookup (load_vocab [97, 10, 97, 10]) [97] = some 2 ∧
      ¬ mapLookup (load_vocab [97, 10, 97, 10]) [97] = some 1 := by
  have h : mapLookup (vocabRead [97, 10, 97, 10]) [97] = some 2 := by decide
  have h2 : mapLookup (load_vocab [97, 10, 97, 10]) [97] = some 2 :=
    fallbackFill_preserve h
  exact ⟨h2, by rw [h2]; simp⟩

/-- Claim C7, amended: when the same subword occurs more than once in the
smartlist stream, the index maps it to the rank of its **last** occurrence
(ranks of all occurrences are still consumed): if the lines are
`ws1 ++ w :: ws2` with `w` not recurring in `ws2`, then `w` maps to rank
`ws1.length + 1`. -/
theorem c7_last_occurrence (ws1 : List (List Nat)) (w : List Nat)
    (ws2 : List (List Nat)) (hws1 : ∀ x ∈ ws1, 10 ∉ x) (hw : 10 ∉ w)
    (hws2 : ∀ x ∈ ws2, 10 ∉ x) (hlast : w ∉ ws2) :
    mapLookup (load_vocab (linesFile (ws1 ++ w :: ws2))) w =
      some (ws1.length + 1) := by
  have hall : ∀ x ∈ ws1 ++ w :: ws2, 10 ∉ x := by
    intro x hx
    rcases List.mem_append.mp hx with hx | hx
    · exact hws1 x hx
    rcases List.mem_cons.mp hx with rfl | hx2
    · exact hw
    · exact hws2 x hx2
  have hchunks : chunks (linesFile (ws1 ++ w :: ws2)) =
      (ws1 ++ w :: ws2).map (fun x => x ++ [10]) := by
    have h := chunks_linesFile_append (ws1 ++ w :: ws2) [] hall
    rw [List.append_nil] at h
    rw [h]
    rw [show chunks [] = [] from rfl, List.append_nil]
  have hfun : (List.dropLast ∘ fun x : List Nat => x ++ [10]) = fun x => x := by
    funext x
    simp [List.dropLast_concat]
  have hnotmem : (w ++ [10]).dropLast ∉ (ws2.map (fun x => x ++ [10])).map
      List.dropLast := by
    rw [List.dropLast_concat, List.map_map, hfun, List.map_id']
    exact hlast
  apply fallbackFill_preserve
  unfold vocabRead
  rw [hchunks, List.map_append, List.map_cons]
  have hlk := lvFold_lookup_split (ws1.map (fun x => x ++ [10])) (w ++ [10])
    (ws2.map (fun x => x ++ [10])) ([], 1)
    (by
      intro x hx
      obtain ⟨y, _, rfl⟩ := List.mem_map.mp hx
      simp)
    (by simp) hnotmem
  rw [List.dropLast_concat] at hlk
  rw [hlk, List.length_map, Nat.add_comm]

/-- Witness for C7's amended theorem at the file `a\na\n`: the duplicated
line `a` maps to rank 2, the rank of its second (last) occurrence. -/
theorem c7_last_occurrence_witness :
    mapLookup (load_vocab (linesFile ([[97]] ++ [97] :: []))) [97] = some 2 := by
  have h := c7_last_occurrence [[97]] [97] [] (by decide) (by decide)
    (by intro x hx; simp at hx) (by simp)
  simpa using h

/-- Claim C8: the minimum cost returned by the hybrid solver equals the
left-to-right sum (`log2Sum`, the accumulation order of the search) of
`log2 (rank s)` over the byte-level segments of the returned segmentation. -/
theorem c8_cost_consistency (file pwd : List Nat) (c : ℝ) (segs : List (List Nat))
    (h : compute_password_entropy file pwd = some (c, segs)) :
    ∃ bsegs, passwordSegmentation file pwd = some bsegs ∧
      c = log2Sum (bsegs.map (rankOf file)) := by
  obtain ⟨x, hb, hc, hs⟩ := compute_some_parts h
  refine ⟨segmentsOfAux pwd 0 x.2, segmentation_of_bestFrom hb, ?_⟩
  rw [hc, pathRanksAux_eq]
  rfl

/-- Witness for C8 at the concrete password `a` and the empty smartlist
file. -/
theorem c8_cost_consistency_witness :
    ∃ bsegs, passwordSegmentation [] [97] = some bsegs ∧
      log2Sum [1 * 1] = log2Sum (bsegs.map (rankOf [])) := by
  have h97 : loadVocabLookup [] [97] = some 1 := loadVocabLookup_empty_byte (by omega)
  have hc := compute_single h97
  rw [show utf8Lossy [97] = [97] from rfl] at hc
  exact c8_cost_consistency [] [97] (log2Sum [1 * 1]) [[97]] hc

/-- Claim C10: every returned hybrid entropy is nonnegative (all ranks in the
loaded vocab are at least 1, so every edge weight `log2 rank` is at least 0
and so is the accumulated path cost), and the empty password has entropy
exactly 0 with an empty segmentation. -/
theorem c10_entropy_nonneg :
    (∀ (file pwd : List Nat) (c : ℝ) (segs : List (List Nat)),
      compute_password_entropy file pwd = some (c, segs) → 0 ≤ c) ∧
    (∀ file : List Nat, compute_password_entropy file [] = some (0, [])) := by
  constructor
  · intro file pwd c segs h
    obtain ⟨x, _, hc, _⟩ := compute_some_parts h
    rw [hc]
    apply log2Sum_nonneg
    intro r hr
    exact pathRanksAux_mem_ge_one
      (fun k v hv => load_vocab_valuesGe file k v hv) x.2 0 r hr
  · intro file
    exact compute_nil file

/-- Witness for C10's nonnegativity clause at the concrete password `a` and
the empty smartlist file. -/
theorem c10_entropy_nonneg_witness : 0 ≤ log2Sum [1 * 1] := by
  have h97 : loadVocabLookup [] [97] = some 1 := loadVocabLookup_empty_byte (by omega)
  exact c10_entropy_nonneg.1 [] [97] (log2Sum [1 * 1]) [utf8Lossy [97]]
    (compute_single h97)

end Cracken
